import Mathlib

/-!
Verification development for the info-teacher-radar repository.

We shallowly embed the two source files:
  * `src/scripts/fetch.js` (final revision, the first of the two concatenated
    variants in the file — the spec's design notes declare the simpler
    "no unwrap" revision authoritative): URL normalization (`stripTracking`),
    classification (`assignTabAndTags`), scoring (`computeScore`) and
    aggregation (`dedupeAndEnrich`).
  * the unnamed front-end file (`src/unnamed/part_000`): the bookmark store
    (`loadBookmarks`, `toggleBookmark`), the today digest (`pickToday`) and
    tab switching (`setTab`).

Modelling conventions:
  * JavaScript strings are embedded as `List Char` (`Str`).  `String.includes`
    is contiguous-substring search (`containsSeq`), `trim` strips ASCII
    whitespace, `toLowerCase` is modelled on the characters that actually
    occur in the classifier keywords (ASCII letters plus the Roman-numeral
    letter used in 情報Ⅰ).
  * Timestamps (`publishedAt`, `now`) are integer epoch milliseconds; the
    code stores them as ISO strings and compares them through `new Date`,
    which is order-isomorphic to the millisecond value.  Day differences are
    exact rationals (`daysDiffFromNow`), matching the JS arithmetic
    `(now - d)/(1000*60*60*24)`.
  * `sha1` hex digests serve only as collision-free deduplication keys; the
    digest is modelled as the injective function returning its input.
  * The WHATWG `URL` object used by `stripTracking` is modelled by an
    explicit parser/serializer (`parseURL`/`serializeURL`) that is faithful
    on plain `scheme://host/path?query#fragment` URLs whose components need
    no percent-encoding or case folding; all other inputs are conservatively
    treated as unparseable, which makes `stripTracking` return them
    unchanged, exactly like the `catch` branch in the source.
  * The JS `Map` of `dedupeAndEnrich` is an insertion-ordered association
    list with in-place update (`mapSet`), and `Array.prototype.sort` (stable
    since ES2019) is `stableSort`, a stable insertion sort; a stable sorted
    permutation under a total transitive comparator is unique, so the two
    agree exactly on every comparator used here.
-/

namespace ITR

abbrev Str := List Char

def str (x : String) : Str := x.data

/-- JS `String.prototype.startsWith` restricted to what we need:
`startsWith l p` is true when `p` is an initial run of `l`. -/
def startsWith : Str → Str → Bool
  | _, [] => true
  | [], _ :: _ => false
  | a :: as, b :: bs => a == b && startsWith as bs

/-- JS `String.prototype.includes`: contiguous substring occurrence. -/
def containsSeq : Str → Str → Bool
  | [], pat => pat.isEmpty
  | hay@(_ :: t), pat => startsWith hay pat || containsSeq t pat

/-- Last character test (for the `endsWith("/")` check of `stripTracking`). -/
def lastIs (l : Str) (c : Char) : Bool :=
  match l.getLast? with
  | some x => x == c
  | none => false

def isWsChar (c : Char) : Bool :=
  c == ' ' || c == '\t' || c == '\n' || c == '\r'

/-- JS `String.prototype.trim` (ASCII whitespace suffices for the inputs the
pipeline produces). -/
def trimStr (l : Str) : Str :=
  ((l.dropWhile isWsChar).reverse.dropWhile isWsChar).reverse

/-- JS `String.prototype.toLowerCase`, restricted to ASCII letters plus the
Roman-numeral capital Ⅰ (U+2160 → U+2170) that occurs in the classifier
keyword 情報ⅰ; all other characters used by the sources are caseless. -/
def jsLowerChar (c : Char) : Char :=
  if 'A' ≤ c ∧ c ≤ 'Z' then Char.ofNat (c.toNat + 32)
  else if c = 'Ⅰ' then 'ⅰ'
  else c

def jsLower (l : Str) : Str := l.map jsLowerChar

/-- Stable insertion of `x` into a sorted list: `x` goes after every element
that may precede it, so elements processed earlier keep their relative
position on ties. -/
def insertSorted {α : Type} (le : α → α → Bool) (x : α) : List α → List α
  | [] => [x]
  | y :: ys => if le y x then y :: insertSorted le x ys else x :: y :: ys

/-- Stable sort by insertion.  `Array.prototype.sort` has been required to be
stable since ES2019, and a stable sorted permutation of a list under a total
transitive comparator is unique, so this function computes exactly what the
source's `sort(comparator)` calls compute. -/
def stableSort {α : Type} (le : α → α → Bool) (l : List α) : List α :=
  l.foldl (fun acc x => insertSorted le x acc) []

/-! ## URL model (`new URL`, `URLSearchParams`) -/

def isSchemeChar (c : Char) : Bool := 'a' ≤ c && c ≤ 'z'

def isHostChar (c : Char) : Bool :=
  ('a' ≤ c && c ≤ 'z') || ('0' ≤ c && c ≤ '9') || c == '-' || c == '.'

def isPathChar (c : Char) : Bool :=
  ('a' ≤ c && c ≤ 'z') || ('A' ≤ c && c ≤ 'Z') || ('0' ≤ c && c ≤ '9') ||
  c == '/' || c == '-' || c == '_' || c == '~' || c == '.' || c == ','

/-- Characters the `application/x-www-form-urlencoded` serializer keeps
verbatim: these query names/values survive `URLSearchParams` round trips
unchanged. -/
def isQueryChar (c : Char) : Bool :=
  ('a' ≤ c && c ≤ 'z') || ('A' ≤ c && c ≤ 'Z') || ('0' ≤ c && c ≤ '9') ||
  c == '-' || c == '.' || c == '_' || c == '*'

/-- Printable ASCII the URL serializer reproduces verbatim in a fragment. -/
def isFragChar (c : Char) : Bool :=
  ('!' ≤ c && c ≤ '~') && c.toNat != 37 && c.toNat != 34 &&
  c.toNat != 60 && c.toNat != 62 && c.toNat != 96

structure URLRec where
  scheme : Str
  host : Str
  path : Str
  query : List (Str × Str)
  frag : Option Str
deriving DecidableEq, Repr

/-- Splitting on a separator character (used for `&`-separated query segments
and `/`-separated path segments). -/
def splitOnChar (sep : Char) : Str → List Str
  | [] => [[]]
  | c :: t =>
    if c == sep then [] :: splitOnChar sep t
    else
      match splitOnChar sep t with
      | [] => [[c]]
      | h :: r => (c :: h) :: r

/-- The real parser resolves `.` and `..` path segments; paths without them
(and without characters needing escapes) are reproduced verbatim. -/
def segsOK (path : Str) : Bool :=
  (splitOnChar '/' path).all fun seg => seg ≠ ['.'] && seg ≠ ['.', '.']

def pathOK (path : Str) : Bool := path.all isPathChar && segsOK path

def notPathEnd (c : Char) : Bool := c != '?' && c != '#'

/-- One `URLSearchParams` segment: `name` or `name=value`. -/
def parseQuerySeg (seg : Str) : Option (Str × Str) :=
  let name := seg.takeWhile (fun c => c != '=')
  match seg.dropWhile (fun c => c != '=') with
  | [] => if name.all isQueryChar then some (name, []) else none
  | _ :: v =>
    if name.all isQueryChar && v.all isQueryChar then some (name, v) else none

def parseQuery (raw : Str) : Option (List (Str × Str)) :=
  ((splitOnChar '&' raw).filter (fun seg => seg ≠ [])).mapM parseQuerySeg

def parseAfterPath (scheme host path : Str) (r3 : Str) : Option URLRec :=
  match r3 with
  | [] => some ⟨scheme, host, path, [], none⟩
  | c :: r4 =>
    if c == '?' then
      let rawq := r4.takeWhile (fun c => c != '#')
      match parseQuery rawq with
      | none => none
      | some q =>
        match r4.dropWhile (fun c => c != '#') with
        | [] => some ⟨scheme, host, path, q, none⟩
        | c2 :: f =>
          if c2 == '#' then
            if f.all isFragChar then some ⟨scheme, host, path, q, some f⟩
            else none
          else none
    else if c == '#' then
      if r4.all isFragChar then some ⟨scheme, host, path, [], some r4⟩
      else none
    else none

/-- Model of `new URL(url)` followed by `.toString()`-style component access:
faithful on plain `scheme://host/path?query#fragment` URLs whose components
are already in canonical form; everything else is conservatively rejected
(the source's `catch` then returns the input unchanged). -/
def parseURL (cs : Str) : Option URLRec :=
  let scheme := cs.takeWhile isSchemeChar
  match cs.dropWhile isSchemeChar with
  | c1 :: c2 :: c3 :: r1 =>
    if c1 == ':' && c2 == '/' && c3 == '/' then
      if scheme.isEmpty then none
      else
        let host := r1.takeWhile isHostChar
        let r2 := r1.dropWhile isHostChar
        if host.isEmpty then none
        else
          match r2 with
          | [] => parseAfterPath scheme host ['/'] []
          | c :: _ =>
            if c == '/' then
              let path := r2.takeWhile notPathEnd
              if pathOK path then
                parseAfterPath scheme host path (r2.dropWhile notPathEnd)
              else none
            else if c == '?' || c == '#' then
              parseAfterPath scheme host ['/'] r2
            else none
    else none
  | _ => none

def joinSep (sep : Char) : List Str → Str
  | [] => []
  | [x] => x
  | x :: y :: xs => x ++ sep :: joinSep sep (y :: xs)

/-- `URLSearchParams.prototype.toString`: always `name=value`. -/
def queryToStr (q : List (Str × Str)) : Str :=
  joinSep '&' (q.map fun p => p.1 ++ '=' :: p.2)

/-- The serialized query-plus-fragment tail: `?query` only when the query is
non-empty (`u.search = params.toString() ? "?" + ... : ""`), then
`#fragment` when a fragment is present. -/
def queryFragPart (query : List (Str × Str)) (frag : Option Str) : Str :=
  (if query.isEmpty then [] else '?' :: queryToStr query) ++
  (match frag with
   | none => []
   | some f => '#' :: f)

def serializeURL (u : URLRec) : Str :=
  u.scheme ++ ':' :: '/' :: '/' ::
    (u.host ++ u.path ++ queryFragPart u.query u.frag)

def trackerKeys : List Str :=
  [str "utm_source", str "utm_medium", str "utm_campaign", str "utm_term",
   str "utm_content", str "fbclid", str "gclid", str "yclid", str "igshid"]

/-- The parsed record after `drop.forEach(k => params.delete(k))`: the same
URL with the tracking query parameters removed. -/
def strippedRec (u : URLRec) : URLRec :=
  { u with query := u.query.filter fun p => !(trackerKeys.contains p.1) }

/-- `stripTracking` from fetch.js: parse, drop the tracking query parameters,
re-serialize (query part only when non-empty), and remove one trailing slash
unless the pathname is the root; unparseable input is returned unchanged. -/
def stripTracking (url : Str) : Str :=
  match parseURL url with
  | none => url
  | some u =>
    let out := serializeURL (strippedRec u)
    if lastIs out '/' && u.path ≠ ['/'] then out.dropLast else out

/-! ## Classifier, scorer, aggregator (fetch.js) -/

inductive Tab where
  | ICT
  | INFO1
  | EXAM
  | AI_EDU
  | AI_LATEST
  | MEXT
deriving DecidableEq, Repr

def condTag (c : Bool) (tag : String) : List Str :=
  if c then [str tag] else []

/-- `if (tags.length === 0) tags.push(fallback)`. -/
def withFallback (tags : List Str) (fb : String) : List Str :=
  if tags = [] then [str fb] else tags

/-- `assignTabAndTags(title, url, source)` from fetch.js: ordered cascade of
keyword rules over the lowercased concatenation `title + " " + url + " " +
source`, with per-branch fallback tags. -/
def assignTabAndTags (title url source : Str) : Tab × List Str :=
  let t := jsLower (title ++ str " " ++ url ++ str " " ++ source)
  let inc := fun (k : String) => containsSeq t (str k)
  let isMext :=
    containsSeq url (str "mext.go.jp") ||
    containsSeq (jsLower source) (str "文部科学省")
  if isMext then
    let tags :=
      condTag (inc "通知" || inc "事務連絡") "通知/事務連絡" ++
      condTag (inc "審議会") "審議会" ++
      condTag (inc "会議" || inc "資料") "会議資料"
    (Tab.MEXT, withFallback tags "文科省")
  else if inc "共通テスト" || inc "大学入学共通テスト" ||
      (inc "情報ⅰ" && inc "共通") then
    (Tab.EXAM, [str "共通テスト"])
  else if inc "ict" || inc "giga" || inc "校務dx" || inc "教育ict" ||
      containsSeq source (str "ICT教育ニュース") then
    let tags :=
      condTag (inc "giga" || inc "一人一台" || inc "端末") "GIGA" ++
      condTag (inc "校務dx" || inc "校務" || inc "統合型校務") "校務DX" ++
      condTag (inc "lms" || inc "classroom" || inc "teams" || inc "moodle")
        "LMS・学習基盤" ++
      condTag (inc "byod") "端末・BYOD" ++
      condTag (inc "ネットワーク" || inc "wifi" || inc "回線") "ネットワーク整備" ++
      condTag (inc "教育委員会" || inc "自治体") "教育委員会・自治体"
    (Tab.ICT, withFallback tags "ICT教育")
  else if inc "情報i" || inc "情報ⅰ" || inc "情報 Ⅰ" || inc "情報科" ||
      inc "高校 情報" then
    let tags :=
      condTag (inc "プログラミング" || inc "python" || inc "scratch" ||
        inc "アルゴリズム") "プログラミング" ++
      condTag (inc "データ活用" || inc "統計" || inc "分析" || inc "可視化")
        "データ活用" ++
      condTag (inc "情報デザイン" || inc "プレゼン" || inc "メディア")
        "情報デザイン" ++
      condTag (inc "ネットワーク") "ネットワーク" ++
      condTag (inc "セキュリティ") "セキュリティ(授業)" ++
      condTag (inc "探究" || inc "pbl") "探究・PBL" ++
      condTag (inc "評価" || inc "ルーブリック") "評価"
    (Tab.INFO1, withFallback tags "情報Ⅰ")
  else if inc "生成ai" || inc "chatgpt" || inc "llm" || inc "aiツール" ||
      inc "エージェント" then
    let eduSignals := [str "授業", str "教育", str "学校", str "校務",
      str "ガイドライン", str "研修", str "著作権", str "個人情報"]
    let isEdu := eduSignals.any fun k => containsSeq t k
    if isEdu then
      let tags :=
        condTag (inc "事例" || inc "活用") "活用事例" ++
        condTag (inc "校務") "校務" ++
        condTag (inc "ガイドライン" || inc "指針") "ガイドライン" ++
        condTag (inc "研修") "研修" ++
        condTag (inc "著作権") "著作権" ++
        condTag (inc "個人情報") "個人情報"
      (Tab.AI_EDU, withFallback tags "生成AI(教育)")
    else
      let tags :=
        condTag (inc "新機能" || inc "アップデート") "新機能" ++
        condTag (inc "新モデル" || inc "llm" || inc "モデル") "新モデル" ++
        condTag (inc "ツール" || inc "サービス" || inc "アプリ") "AIツール" ++
        condTag (inc "仕事術" || inc "ワークフロー") "ワークフロー"
      (Tab.AI_LATEST, withFallback tags "生成AI(最新)")
  else
    (Tab.ICT, [str "教育ニュース"])

structure Item where
  id : Str
  title : Str
  url : Str
  source : Str
  publishedAt : Int
  tab : Tab
  tags : List Str
  score : Int
deriving DecidableEq, Repr

instance : Inhabited Item :=
  ⟨{ id := [], title := [], url := [], source := [], publishedAt := 0,
     tab := Tab.ICT, tags := [], score := 0 }⟩

/-- One day in epoch milliseconds (`1000*60*60*24`). -/
def daysMs : Int := 86400000

/-- `daysDiffFromNow(iso)`: `(now - d) / (1000*60*60*24)` with timestamps in
epoch milliseconds, as an exact rational. -/
def daysDiffFromNow (now d : Int) : ℚ := ((now - d : Int) : ℚ) / 86400000

def teachKeys : List Str :=
  [str "授業", str "教材", str "指導案", str "実践", str "ワークシート",
   str "評価", str "ルーブリック"]

/-- `computeScore(item)` from fetch.js (the recency tiers read the ambient
clock, passed here as `now`). -/
def computeScore (now : Int) (it : Item) : Int :=
  let s1 : Int := if containsSeq it.source (str "ICT教育ニュース") then 20 else 0
  let s2 : Int := if containsSeq it.url (str "mext.go.jp") then 10 else 0
  let s3 : Int :=
    match it.tab with
    | Tab.ICT => 8
    | Tab.INFO1 => 6
    | Tab.AI_LATEST => 4
    | Tab.AI_EDU => 3
    | Tab.MEXT => 2
    | Tab.EXAM => 1
  let tt := jsLower it.title
  let s4 : Int := if teachKeys.any (fun k => containsSeq tt k) then 5 else 0
  let dd := now - it.publishedAt
  let s5 : Int :=
    if dd ≤ 1 * daysMs then 6
    else if dd ≤ 3 * daysMs then 4
    else if dd ≤ 7 * daysMs then 2 else 0
  s1 + s2 + s3 + s4 + s5

/-- SHA-1 hex digest, modelled as a collision-free (injective) key. -/
def sha1 (s : Str) : Str := s

structure Raw where
  title : Str
  url : Str
  source : Str
  publishedAt : Int
deriving DecidableEq, Repr

/-- `Array.from(new Set([...a, ...b]))`: union keeping first-seen order. -/
def jsSetUnion (a b : List Str) : List Str :=
  (a ++ b).foldl (fun acc x => if x ∈ acc then acc else acc ++ [x]) []

/-- The merge branch of `dedupeAndEnrich`: longer title, later `publishedAt`
(the ternary in the source keeps the later of the two timestamps), tag-set
union, max score; all other fields from the first-seen item (`...base`). -/
def mergeItems (base incoming : Item) : Item :=
  { base with
    title := if base.title.length < incoming.title.length then incoming.title
      else base.title,
    publishedAt := if incoming.publishedAt < base.publishedAt then
      base.publishedAt else incoming.publishedAt,
    tags := jsSetUnion base.tags incoming.tags,
    score := max base.score incoming.score }

/-- JS `Map.prototype.set`: update in place if the key exists, else append. -/
def mapSet (m : List (Str × Item)) (k : Str) (v : Item) : List (Str × Item) :=
  if m.any (fun p => p.1 == k) then
    m.map fun p => if p.1 == k then (k, v) else p
  else m ++ [(k, v)]

/-- JS `Map.prototype.get`. -/
def mapGet (m : List (Str × Item)) (k : Str) : Option Item :=
  (m.find? (fun p => p.1 == k)).map (·.2)

/-- The candidate `Item` built for one provisional record inside the dedup
loop of `dedupeAndEnrich` (the classifier receives the raw source string,
the stored `source` falls back to an em dash when empty, and `score` is
computed from the otherwise-complete item). -/
def candItem (now : Int) (r : Raw) : Item :=
  let url := stripTracking r.url
  let title := trimStr r.title
  let c := assignTabAndTags title url r.source
  let pre : Item :=
    { id := str "sha1:" ++ sha1 url, title := title, url := url,
      source := if r.source = [] then str "—" else r.source,
      publishedAt := r.publishedAt, tab := c.1, tags := c.2, score := 0 }
  { pre with score := computeScore now pre }

/-- One iteration of the dedup loop of `dedupeAndEnrich`. -/
def dedupeStep (now : Int) (m : List (Str × Item)) (r : Raw) :
    List (Str × Item) :=
  if stripTracking r.url = [] ∨ trimStr r.title = [] then m
  else
    let it := candItem now r
    match mapGet m it.id with
    | none => mapSet m it.id it
    | some base => mapSet m it.id (mergeItems base it)

/-- The dedup `Map` after the whole first loop of `dedupeAndEnrich`. -/
def dedupeMap (now : Int) (rs : List Raw) : List (Str × Item) :=
  rs.foldl (dedupeStep now) []

def DAYS_KEEP : ℚ := 7

/-- `(DAYS_KEEP + 0.001)` days in epoch milliseconds: `7 * daysMs + 86400`.
(`0.001 * 86400000 = 86400` exactly.) -/
def retentionMs : Int := 7 * daysMs + 86400

/-- The retention filter `daysDiffFromNow(x.publishedAt) <= DAYS_KEEP + 0.001`,
expressed over milliseconds so that it evaluates in the kernel; the theorem
`inRetention_iff` proves it equal to the source's rational comparison. -/
def inRetention (now : Int) (it : Item) : Bool :=
  now - it.publishedAt ≤ retentionMs

/-- The sort comparator: score descending, ties by `publishedAt` descending.
`rankLE a b` means `a` may come (weakly) before `b`. -/
def rankLE (a b : Item) : Bool :=
  b.score < a.score || (b.score == a.score && b.publishedAt ≤ a.publishedAt)

/-- `dedupeAndEnrich(rawItems)` from fetch.js: dedupe/merge, retention
filter, stable sort by `rankLE`, cap to 800. -/
def dedupeAndEnrich (now : Int) (rs : List Raw) : List Item :=
  (stableSort rankLE
    (((dedupeMap now rs).map (·.2)).filter (inRetention now))).take 800

/-! ## Front-end (part_000): bookmark store, today digest, tab switching -/

structure BMState where
  map : List (Str × Item)
  order : List Str
deriving DecidableEq, Repr

def emptyBM : BMState := { map := [], order := [] }

/-- A possibly-partial parsed bookmark JSON object (`map`/`order` may be
absent). -/
structure BMJson where
  map : Option (List (Str × Item))
  order : Option (List Str)

/-- `loadBookmarks()`: the stored value is absent (`none`), present but
unparseable (`some none` — `JSON.parse` throws and the `catch` fires), or
parsed (`some (some j)`), in which case missing fields default to empty. -/
def loadBookmarks : Option (Option BMJson) → BMState
  | none => emptyBM
  | some none => emptyBM
  | some (some j) => { map := j.map.getD [], order := j.order.getD [] }

/-- The snapshot object built by `toggleBookmark`: a copy of every field of
the item (with `tags || []` and `score || 0` supplied by the artifact). -/
def snapOf (it : Item) : Item :=
  { id := it.id, title := it.title, url := it.url, source := it.source,
    publishedAt := it.publishedAt, tab := it.tab, tags := it.tags,
    score := it.score }

def bmCAP : Nat := 500

/-- `toggleBookmark(item)` from part_000:
remove identity and snapshot if bookmarked; else insert the snapshot,
prepend the identity, and evict past the soft cap from the tail. -/
def toggleBookmark (item : Item) (bm : BMState) : BMState :=
  match mapGet bm.map item.id with
  | some _ =>
    { map := bm.map.filter fun p => !(p.1 == item.id),
      order := bm.order.filter fun x => !(x == item.id) }
  | none =>
    let m := bm.map ++ [(item.id, snapOf item)]
    let ord := item.id :: bm.order
    if bmCAP < ord.length then
      { map := (ord.drop bmCAP).foldl
          (fun mm idk => mm.filter fun p => !(p.1 == idk)) m,
        order := ord.take bmCAP }
    else { map := m, order := ord }

/-- `withinDays(item, days)` from part_000: `(now - d)/(1000*60*60*24) <=
days + 0.001`, expressed over milliseconds (see `withinDays_iff`). -/
def withinDays (now : Int) (it : Item) (days : Int) : Bool :=
  now - it.publishedAt ≤ days * daysMs + 86400

/-- The today-digest comparator: score descending only. -/
def scoreLE (a b : Item) : Bool := b.score ≤ a.score

def buckets : List Tab :=
  [Tab.ICT, Tab.INFO1, Tab.AI_LATEST, Tab.AI_EDU, Tab.MEXT, Tab.EXAM]

/-- The per-bucket selection of `pickToday`: items of the bucket within the
7-day window, sorted by score descending, first 6. -/
def bucketTop (now : Int) (items : List Item) (b : Tab) : List Item :=
  (stableSort scoreLE ((items.filter fun x => x.tab == b).filter
    fun x => withinDays now x 7)).take 6

/-- First-occurrence dedup by `id` (the insertion-ordered `Map` of
`pickToday`); `seen` carries the ids already kept. -/
def dedupeByIdAux (seen : List Str) : List Item → List Item
  | [] => []
  | x :: xs =>
    if x.id ∈ seen then dedupeByIdAux seen xs
    else x :: dedupeByIdAux (x.id :: seen) xs

def dedupeById (l : List Item) : List Item := dedupeByIdAux [] l

/-- The concatenated, id-deduplicated candidate pool of `pickToday`. -/
def pickTodayPool (now : Int) (items : List Item) : List Item :=
  dedupeById (buckets.flatMap (bucketTop now items))

/-- `pickToday(items)` from part_000: per-bucket top 6 within 7 days,
concatenated, deduplicated by id, re-sorted by score, capped to 20. -/
def pickToday (now : Int) (items : List Item) : List Item :=
  (stableSort scoreLE (pickTodayPool now items)).take 20

/-- UI selection state touched by `setTab`. -/
structure ViewState where
  activeTab : Str
  activeTag : Option Str
  searchText : Str
  sortMode : Str
  daysValue : Str
  daysDisabled : Bool
deriving DecidableEq, Repr

/-- `setTab(tabKey)` from part_000: switches the tab and resets the tag
filter, the search box, the sort select and the days select; the days
select is disabled exactly for the bookmark and clips modes. -/
def setTab (k : Str) (_s : ViewState) : ViewState :=
  { activeTab := k, activeTag := none, searchText := [],
    sortMode := str "score", daysValue := str "7",
    daysDisabled := k == str "BOOKMARKS" || k == str "X" }

/-! ## Auxiliary predicates and concrete data for the claims -/

/-- Canonical-form invariant of parsed URL records: exactly the components
our `parseURL` can produce, and on which `serializeURL` inverts it. -/
def validURL (u : URLRec) : Prop :=
  u.scheme ≠ [] ∧ (∀ c ∈ u.scheme, isSchemeChar c = true) ∧
  u.host ≠ [] ∧ (∀ c ∈ u.host, isHostChar c = true) ∧
  u.path.head? = some '/' ∧ pathOK u.path = true ∧
  (∀ p ∈ u.query,
    (∀ c ∈ p.1, isQueryChar c = true) ∧ (∀ c ∈ p.2, isQueryChar c = true)) ∧
  (∀ f, u.frag = some f → ∀ c ∈ f, isFragChar c = true)

/-- The normalized form is stable under a second pass when it does not end
with a slash, or when that slash is the root path.  (The remaining case —
a trailing slash coming from a multi-slash path or a slash-final fragment —
is exactly where `stripTracking` fails to be idempotent.) -/
def normStable (v : Str) : Bool :=
  !(lastIs v '/') ||
  (match parseURL v with
   | some u => u.path == ['/']
   | none => false)

/-- Two provisional records colliding on the same canonical URL with
different observed timestamps (one day apart). -/
def c1r1 : Raw :=
  { title := str "alpha", url := str "https://example.com/a",
    source := str "src", publishedAt := 0 }

def c1r2 : Raw :=
  { title := str "alpha", url := str "https://example.com/a",
    source := str "src", publishedAt := 86400000 }

/-- Two colliding provisional records whose (merged) timestamp is 9 days
older than the clock used in the C2 counterexample. -/
def c2r1 : Raw :=
  { title := str "alpha", url := str "https://example.com/b",
    source := str "src", publishedAt := 0 }

def c2r2 : Raw :=
  { title := str "alpha beta", url := str "https://example.com/b",
    source := str "src", publishedAt := 0 }

/-- A provisional record fresh at clock 0 (used for small witnesses). -/
def c3r : Raw :=
  { title := str "hello", url := str "https://example.com/c",
    source := str "src", publishedAt := 0 }

/-- A concrete artifact item (identity `"a"`). -/
def itA : Item :=
  { id := str "a", title := str "ta", url := str "https://example.com/x",
    source := str "s", publishedAt := 0, tab := Tab.ICT,
    tags := [str "GIGA"], score := 1 }

/-- A concrete artifact item (identity `"b"`). -/
def itB : Item :=
  { id := str "b", title := str "tb", url := str "https://example.com/y",
    source := str "s", publishedAt := 0, tab := Tab.INFO1,
    tags := [str "評価"], score := 2 }

/-- A bookmark state in which `itB` is already bookmarked, behind `itA`. -/
def bm2 : BMState :=
  { map := [(str "a", itA), (str "b", itB)],
    order := [str "a", str "b"] }

/-- An item family for the digest claims: distinct ids, chosen tab/score,
published at clock 0. -/
def c8item (n : Nat) (tb : Tab) (sc : Int) : Item :=
  { id := 'i' :: Nat.toDigits 10 n, title := str "t",
    url := str "u", source := str "s", publishedAt := 0, tab := tb,
    tags := [str "g"], score := sc }

/-- 26 items: four categories full of uniformly high scores (6 × 100,
6 × 90, 6 × 80, 6 × 70) plus one low-scored MEXT and one low-scored EXAM
item; every digest bucket is represented within the window. -/
def c8items : List Item :=
  ((List.range 6).map fun n => c8item n Tab.ICT 100) ++
  ((List.range 6).map fun n => c8item (10 + n) Tab.INFO1 90) ++
  ((List.range 6).map fun n => c8item (20 + n) Tab.AI_LATEST 80) ++
  ((List.range 6).map fun n => c8item (30 + n) Tab.AI_EDU 70) ++
  [c8item 40 Tab.MEXT 10, c8item 41 Tab.EXAM 5]

/-- One item per digest bucket (used as the balanced-digest witness). -/
def c8small : List Item :=
  [c8item 0 Tab.ICT 30, c8item 1 Tab.INFO1 25, c8item 2 Tab.AI_LATEST 20,
   c8item 3 Tab.AI_EDU 15, c8item 4 Tab.MEXT 10, c8item 5 Tab.EXAM 5]

/-! ## General helper lemmas -/

theorem insertSorted_perm {α : Type} (le : α → α → Bool) (x : α)
    (l : List α) : (insertSorted le x l).Perm (x :: l) := by
  induction l with
  | nil => exact List.Perm.refl _
  | cons y ys ih =>
    simp only [insertSorted]
    split
    · exact (ih.cons y).trans (List.Perm.swap x y ys)
    · exact List.Perm.refl _

theorem stableSort_perm {α : Type} (le : α → α → Bool) (l : List α) :
    (stableSort le l).Perm l := by
  have key : ∀ (l acc : List α),
      (l.foldl (fun acc x => insertSorted le x acc) acc).Perm (acc ++ l) := by
    intro l
    induction l with
    | nil => intro acc; simp
    | cons x xs ih =>
      intro acc
      simp only [List.foldl_cons]
      refine (ih (insertSorted le x acc)).trans ?_
      refine (List.Perm.append_right xs (insertSorted_perm le x acc)).trans ?_
      exact List.perm_middle.symm
  simpa using key l []

theorem mem_insertSorted {α : Type} (le : α → α → Bool) (x : α) (l : List α)
    (z : α) (hz : z ∈ insertSorted le x l) : z = x ∨ z ∈ l := by
  have := (insertSorted_perm le x l).mem_iff.mp hz
  simpa using this

theorem insertSorted_pairwise {α : Type} {le : α → α → Bool}
    (htrans : ∀ a b c, le a b = true → le b c = true → le a c = true)
    (htotal : ∀ a b, (le a b || le b a) = true)
    (x : α) (l : List α) (hl : l.Pairwise (fun a b => le a b = true)) :
    (insertSorted le x l).Pairwise (fun a b => le a b = true) := by
  induction l with
  | nil => simp [insertSorted]
  | cons y ys ih =>
    rw [List.pairwise_cons] at hl
    simp only [insertSorted]
    split
    · next hyx =>
      rw [List.pairwise_cons]
      refine ⟨?_, ih hl.2⟩
      intro z hz
      rcases mem_insertSorted le x ys z hz with rfl | hz'
      · exact hyx
      · exact hl.1 z hz'
    · next hyx =>
      have hxy : le x y = true := by
        have h := htotal x y
        rw [Bool.or_eq_true] at h
        rcases h with h | h
        · exact h
        · exact absurd h hyx
      rw [List.pairwise_cons]
      refine ⟨?_, List.pairwise_cons.mpr hl⟩
      intro z hz
      rcases List.mem_cons.mp hz with rfl | hz'
      · exact hxy
      · exact htrans x y z hxy (hl.1 z hz')

theorem stableSort_pairwise {α : Type} {le : α → α → Bool}
    (htrans : ∀ a b c, le a b = true → le b c = true → le a c = true)
    (htotal : ∀ a b, (le a b || le b a) = true) (l : List α) :
    (stableSort le l).Pairwise (fun a b => le a b = true) := by
  have key : ∀ (l acc : List α), acc.Pairwise (fun a b => le a b = true) →
      (l.foldl (fun acc x => insertSorted le x acc) acc).Pairwise
        (fun a b => le a b = true) := by
    intro l
    induction l with
    | nil => intro acc h; simpa using h
    | cons x xs ih =>
      intro acc h
      exact ih _ (insertSorted_pairwise htrans htotal x acc h)
  exact key l [] List.Pairwise.nil

/-- The millisecond form of the retention filter is exactly the source's
rational comparison `daysDiffFromNow(x.publishedAt) <= DAYS_KEEP + 0.001`. -/
theorem inRetention_iff (now : Int) (it : Item) :
    inRetention now it = true ↔
      daysDiffFromNow now it.publishedAt ≤ DAYS_KEEP + 1 / 1000 := by
  unfold inRetention daysDiffFromNow DAYS_KEEP retentionMs daysMs
  rw [decide_eq_true_eq]
  rw [div_le_iff₀ (by norm_num : (0:ℚ) < 86400000)]
  have h : ((7 : ℚ) + 1 / 1000) * 86400000 = ((604886400 : Int) : ℚ) := by
    norm_num
  rw [h, Int.cast_le]
  norm_num

/-- The millisecond form of `withinDays` is exactly the source's rational
comparison `(now - d)/(1000*60*60*24) <= days + 0.001`. -/
theorem withinDays_iff (now : Int) (it : Item) (days : Int) :
    withinDays now it days = true ↔
      daysDiffFromNow now it.publishedAt ≤ (days : ℚ) + 1 / 1000 := by
  unfold withinDays daysDiffFromNow daysMs
  rw [decide_eq_true_eq]
  rw [div_le_iff₀ (by norm_num : (0:ℚ) < 86400000)]
  have h : ((days : Int) : ℚ) * 86400000 + (1 / 1000) * 86400000 =
      ((days * 86400000 + 86400 : Int) : ℚ) := by
    push_cast
    ring
  rw [add_mul, h, Int.cast_le]

theorem withFallback_ne_nil (l : List Str) (fb : String) :
    withFallback l fb ≠ [] := by
  unfold withFallback
  split
  · simp
  · assumption

theorem mergeItems_publishedAt (b i : Item) :
    (mergeItems b i).publishedAt = max b.publishedAt i.publishedAt := by
  simp only [mergeItems]
  split <;> omega

theorem candItem_publishedAt (now : Int) (r : Raw) :
    (candItem now r).publishedAt = r.publishedAt := rfl

theorem candItem_url (now : Int) (r : Raw) :
    (candItem now r).url = stripTracking r.url := rfl

theorem candItem_id (now : Int) (r : Raw) :
    (candItem now r).id = str "sha1:" ++ sha1 (stripTracking r.url) := rfl

theorem dedupeStep_skip {now : Int} {m : List (Str × Item)} {r : Raw}
    (h : stripTracking r.url = [] ∨ trimStr r.title = []) :
    dedupeStep now m r = m := by
  unfold dedupeStep
  rw [if_pos h]

theorem dedupeStep_go {now : Int} {m : List (Str × Item)} {r : Raw}
    (hu : stripTracking r.url ≠ []) (ht : trimStr r.title ≠ []) :
    dedupeStep now m r =
      match mapGet m (candItem now r).id with
      | none => mapSet m (candItem now r).id (candItem now r)
      | some base =>
        mapSet m (candItem now r).id (mergeItems base (candItem now r)) := by
  unfold dedupeStep
  rw [if_neg]
  rintro (h | h)
  · exact hu h
  · exact ht h

theorem mapGet_nil (k : Str) : mapGet [] k = none := rfl

theorem mapSet_nil (k : Str) (v : Item) : mapSet [] k v = [(k, v)] := by
  simp [mapSet]

theorem mapGet_single_self (k : Str) (v : Item) :
    mapGet [(k, v)] k = some v := by
  simp [mapGet, List.find?]

theorem mapSet_single_self (k : Str) (v w : Item) :
    mapSet [(k, v)] k w = [(k, w)] := by
  simp [mapSet, List.any_cons]

/-- The dedup map for exactly two colliding records: a single merged entry. -/
theorem dedupeMap_pair {now : Int} {r1 r2 : Raw}
    (hurl : stripTracking r1.url = stripTracking r2.url)
    (hu : stripTracking r1.url ≠ [])
    (ht1 : trimStr r1.title ≠ []) (ht2 : trimStr r2.title ≠ []) :
    dedupeMap now [r1, r2] =
      [((candItem now r1).id,
        mergeItems (candItem now r1) (candItem now r2))] := by
  have hu2 : stripTracking r2.url ≠ [] := by rw [← hurl]; exact hu
  have hid : (candItem now r2).id = (candItem now r1).id := by
    rw [candItem_id, candItem_id, hurl]
  unfold dedupeMap
  simp only [List.foldl_cons, List.foldl_nil]
  rw [dedupeStep_go hu ht1, mapGet_nil]
  simp only [mapSet_nil]
  rw [dedupeStep_go hu2 ht2, hid, mapGet_single_self]
  simp only [mapSet_single_self]

/-- Membership in the first-seen set union is plain set-theoretic union. -/
theorem mem_jsSetUnion (a b : List Str) (x : Str) :
    x ∈ jsSetUnion a b ↔ x ∈ a ∨ x ∈ b := by
  have key : ∀ (l acc : List Str),
      x ∈ l.foldl (fun acc y => if y ∈ acc then acc else acc ++ [y]) acc ↔
        x ∈ acc ∨ x ∈ l := by
    intro l
    induction l with
    | nil => intro acc; simp
    | cons y t ih =>
      intro acc
      simp only [List.foldl_cons, ih, List.mem_cons]
      by_cases hy : y ∈ acc
      · rw [if_pos hy]
        constructor
        · rintro (h | h)
          · exact Or.inl h
          · exact Or.inr (Or.inr h)
        · rintro (h | h | h)
          · exact Or.inl h
          · exact Or.inl (h ▸ hy)
          · exact Or.inr h
      · rw [if_neg hy]
        simp only [List.mem_append, List.mem_singleton]
        tauto
  unfold jsSetUnion
  rw [key, List.mem_append]
  simp

/-! ## URL model lemmas -/

theorem takeWhile_append_of (p : Char → Bool) (l r : Str)
    (hl : ∀ x ∈ l, p x = true)
    (hr : ∀ c, r.head? = some c → p c = false) :
    (l ++ r).takeWhile p = l ∧ (l ++ r).dropWhile p = r := by
  induction l with
  | nil =>
    simp only [List.nil_append]
    cases r with
    | nil => exact ⟨rfl, rfl⟩
    | cons c t =>
      have hc := hr c rfl
      rw [List.takeWhile_cons, List.dropWhile_cons]
      rw [hc]
      exact ⟨rfl, rfl⟩
  | cons a l ih =>
    have ha : p a = true := hl a (List.mem_cons_self a l)
    have ihh := ih (fun x hx => hl x (List.mem_cons_of_mem a hx))
    simp only [List.cons_append, List.takeWhile_cons, List.dropWhile_cons, ha]
    rw [ihh.1, ihh.2]
    exact ⟨rfl, rfl⟩

theorem takeWhile_all_of (p : Char → Bool) (l : Str)
    (hl : ∀ x ∈ l, p x = true) :
    l.takeWhile p = l ∧ l.dropWhile p = [] := by
  have h := takeWhile_append_of p l [] hl (by intro c hc; cases hc)
  simpa using h

theorem pathChar_notPathEnd {c : Char} (h : isPathChar c = true) :
    notPathEnd c = true := by
  by_cases hq : c = '?'
  · subst hq; exact absurd h (by decide)
  · by_cases hh : c = '#'
    · subst hh; exact absurd h (by decide)
    · simp only [notPathEnd, Bool.and_eq_true, bne_iff_ne, ne_eq]
      exact ⟨hq, hh⟩

theorem queryChar_ne {c : Char} (h : isQueryChar c = true) :
    c ≠ '&' ∧ c ≠ '=' ∧ c ≠ '#' ∧ c ≠ '/' := by
  refine ⟨?_, ?_, ?_, ?_⟩ <;> intro hc <;> subst hc <;>
    exact absurd h (by decide)

theorem mem_of_getLastQ {l : Str} {a : Char} (h : l.getLast? = some a) :
    a ∈ l := by
  induction l with
  | nil => cases h
  | cons x xs ih =>
    cases xs with
    | nil =>
      simp only [List.getLast?_singleton, Option.some.injEq] at h
      subst h
      exact List.mem_singleton_self x
    | cons y ys =>
      rw [List.getLast?_cons_cons] at h
      exact List.mem_cons_of_mem x (ih h)

theorem mem_joinSep {sep : Char} {segs : List Str} {c : Char}
    (hc : c ∈ joinSep sep segs) : c = sep ∨ ∃ s ∈ segs, c ∈ s := by
  induction segs with
  | nil => cases hc
  | cons x xs ih =>
    cases xs with
    | nil =>
      exact Or.inr ⟨x, List.mem_cons_self x [], hc⟩
    | cons y ys =>
      simp only [joinSep] at hc
      rcases List.mem_append.mp hc with h | h
      · exact Or.inr ⟨x, List.mem_cons_self x (y :: ys), h⟩
      · rcases List.mem_cons.mp h with rfl | h2
        · exact Or.inl rfl
        · rcases ih h2 with h3 | ⟨s, hs, hcs⟩
          · exact Or.inl h3
          · exact Or.inr ⟨s, List.mem_cons_of_mem x hs, hcs⟩

theorem mem_queryToStr {q : List (Str × Str)} {c : Char}
    (hq : ∀ p ∈ q, (∀ c ∈ p.1, isQueryChar c = true) ∧
      (∀ c ∈ p.2, isQueryChar c = true))
    (hc : c ∈ queryToStr q) : isQueryChar c = true ∨ c = '&' ∨ c = '=' := by
  unfold queryToStr at hc
  rcases mem_joinSep hc with rfl | ⟨s, hs, hcs⟩
  · exact Or.inr (Or.inl rfl)
  · rcases List.mem_map.mp hs with ⟨p, hp, rfl⟩
    rcases List.mem_append.mp hcs with h | h
    · exact Or.inl ((hq p hp).1 c h)
    · rcases List.mem_cons.mp h with rfl | h2
      · exact Or.inr (Or.inr rfl)
      · exact Or.inl ((hq p hp).2 c h2)

theorem queryToStr_ne_hash {q : List (Str × Str)} {c : Char}
    (hq : ∀ p ∈ q, (∀ c ∈ p.1, isQueryChar c = true) ∧
      (∀ c ∈ p.2, isQueryChar c = true))
    (hc : c ∈ queryToStr q) : (c != '#') = true := by
  rcases mem_queryToStr hq hc with h | h | h
  · simp only [bne_iff_ne, ne_eq]
    exact (queryChar_ne h).2.2.1
  · subst h; decide
  · subst h; decide

theorem queryToStr_ne_slash {q : List (Str × Str)} {c : Char}
    (hq : ∀ p ∈ q, (∀ c ∈ p.1, isQueryChar c = true) ∧
      (∀ c ∈ p.2, isQueryChar c = true))
    (hc : c ∈ queryToStr q) : c ≠ '/' := by
  rcases mem_queryToStr hq hc with h | h | h
  · exact (queryChar_ne h).2.2.2
  · subst h; decide
  · subst h; decide

theorem queryToStr_ne_nil {q : List (Str × Str)} (h : q ≠ []) :
    queryToStr q ≠ [] := by
  cases q with
  | nil => exact absurd rfl h
  | cons p ps =>
    cases ps with
    | nil =>
      unfold queryToStr joinSep
      simp
    | cons r rs =>
      unfold queryToStr joinSep
      simp

theorem splitOnChar_no_sep {sep : Char} {l : Str}
    (h : ∀ c ∈ l, (c == sep) = false) : splitOnChar sep l = [l] := by
  induction l with
  | nil => rfl
  | cons c t ih =>
    have hc := h c (List.mem_cons_self c t)
    simp only [splitOnChar, hc, Bool.false_eq_true, if_false]
    rw [ih (fun x hx => h x (List.mem_cons_of_mem c hx))]

theorem splitOnChar_append_sep {sep : Char} {x r : Str}
    (hx : ∀ c ∈ x, (c == sep) = false) :
    splitOnChar sep (x ++ sep :: r) = x :: splitOnChar sep r := by
  induction x with
  | nil =>
    simp only [List.nil_append, splitOnChar, beq_self_eq_true, if_true]
  | cons c t ih =>
    have hc := hx c (List.mem_cons_self c t)
    simp only [List.cons_append, splitOnChar, hc, Bool.false_eq_true, if_false,
      List.append_eq]
    rw [ih (fun y hy => hx y (List.mem_cons_of_mem c hy))]

theorem splitOn_joinSep {sep : Char} {segs : List Str} (hne : segs ≠ [])
    (hsep : ∀ s ∈ segs, ∀ c ∈ s, (c == sep) = false) :
    splitOnChar sep (joinSep sep segs) = segs := by
  induction segs with
  | nil => exact absurd rfl hne
  | cons x xs ih =>
    cases xs with
    | nil => exact splitOnChar_no_sep (hsep x (List.mem_cons_self x []))
    | cons y ys =>
      show splitOnChar sep (x ++ sep :: joinSep sep (y :: ys)) = _
      rw [splitOnChar_append_sep (hsep x (List.mem_cons_self x (y :: ys)))]
      rw [ih (by simp) (fun s hs => hsep s (List.mem_cons_of_mem x hs))]

theorem parseQuerySeg_roundtrip (p : Str × Str)
    (h1 : ∀ c ∈ p.1, isQueryChar c = true)
    (h2 : ∀ c ∈ p.2, isQueryChar c = true) :
    parseQuerySeg (p.1 ++ '=' :: p.2) = some p := by
  obtain ⟨name, val⟩ := p
  simp only at h1 h2
  unfold parseQuerySeg
  have ht := takeWhile_append_of (fun c => c != '=') name ('=' :: val)
    (fun x hx => by
      simp only [bne_iff_ne, ne_eq]
      exact (queryChar_ne (h1 x hx)).2.1)
    (fun c hc => by
      simp only [List.head?_cons, Option.some.injEq] at hc
      subst hc
      decide)
  rw [ht.2]
  dsimp only
  rw [ht.1]
  have hcond : (name.all isQueryChar && val.all isQueryChar) = true := by
    rw [Bool.and_eq_true]
    exact ⟨List.all_eq_true.mpr h1, List.all_eq_true.mpr h2⟩
  rw [if_pos hcond]

theorem mapM_parseQuerySeg (q : List (Str × Str))
    (hq : ∀ p ∈ q, (∀ c ∈ p.1, isQueryChar c = true) ∧
      (∀ c ∈ p.2, isQueryChar c = true)) :
    (q.map fun p => p.1 ++ '=' :: p.2).mapM parseQuerySeg = some q := by
  induction q with
  | nil => rfl
  | cons p ps ih =>
    simp only [List.map_cons, List.mapM_cons]
    rw [parseQuerySeg_roundtrip p (hq p (List.mem_cons_self p ps)).1
      (hq p (List.mem_cons_self p ps)).2,
      ih (fun r hr => hq r (List.mem_cons_of_mem p hr))]
    rfl

theorem parseQuery_roundtrip (q : List (Str × Str)) (hne : q ≠ [])
    (hq : ∀ p ∈ q, (∀ c ∈ p.1, isQueryChar c = true) ∧
      (∀ c ∈ p.2, isQueryChar c = true)) :
    parseQuery (queryToStr q) = some q := by
  unfold parseQuery queryToStr
  have hsegs : ∀ s ∈ q.map (fun p => p.1 ++ '=' :: p.2),
      ∀ c ∈ s, (c == '&') = false := by
    intro s hs c hc
    rcases List.mem_map.mp hs with ⟨p, hp, rfl⟩
    rcases List.mem_append.mp hc with h | h
    · simp only [beq_eq_false_iff_ne, ne_eq]
      exact (queryChar_ne ((hq p hp).1 c h)).1
    · rcases List.mem_cons.mp h with rfl | h2
      · decide
      · simp only [beq_eq_false_iff_ne, ne_eq]
        exact (queryChar_ne ((hq p hp).2 c h2)).1
  rw [splitOn_joinSep (by simpa using hne) hsegs]
  have hfil : (q.map (fun p => p.1 ++ '=' :: p.2)).filter
      (fun seg => seg ≠ []) = q.map (fun p => p.1 ++ '=' :: p.2) := by
    refine List.filter_eq_self.mpr ?_
    intro s hs
    rcases List.mem_map.mp hs with ⟨p, hp, rfl⟩
    simp
  rw [hfil]
  exact mapM_parseQuerySeg q hq

theorem parseAfterPath_roundtrip (scheme host path : Str)
    (query : List (Str × Str)) (frag : Option Str)
    (hq : ∀ p ∈ query, (∀ c ∈ p.1, isQueryChar c = true) ∧
      (∀ c ∈ p.2, isQueryChar c = true))
    (hf : ∀ f, frag = some f → ∀ c ∈ f, isFragChar c = true) :
    parseAfterPath scheme host path (queryFragPart query frag) =
      some ⟨scheme, host, path, query, frag⟩ := by
  cases query with
  | nil =>
    cases frag with
    | none => rfl
    | some f =>
      show parseAfterPath scheme host path ('#' :: f) = _
      unfold parseAfterPath
      dsimp only
      rw [if_neg (by decide), if_pos (by decide),
        if_pos (List.all_eq_true.mpr (hf f rfl))]
  | cons p ps =>
    have hTS : ∀ c ∈ queryToStr (p :: ps), (c != '#') = true :=
      fun c hc => queryToStr_ne_hash hq hc
    cases frag with
    | none =>
      show parseAfterPath scheme host path
        ('?' :: (queryToStr (p :: ps) ++ [])) = _
      rw [List.append_nil]
      unfold parseAfterPath
      dsimp only
      rw [if_pos (by decide)]
      have ht := takeWhile_all_of (fun c => c != '#') (queryToStr (p :: ps)) hTS
      rw [ht.1, ht.2, parseQuery_roundtrip (p :: ps) (by simp) hq]
    | some f =>
      show parseAfterPath scheme host path
        ('?' :: (queryToStr (p :: ps) ++ '#' :: f)) = _
      unfold parseAfterPath
      dsimp only
      rw [if_pos (by decide)]
      have ht := takeWhile_append_of (fun c => c != '#') (queryToStr (p :: ps))
        ('#' :: f) hTS
        (fun c hc => by
          simp only [List.head?_cons, Option.some.injEq] at hc
          subst hc
          decide)
      rw [ht.1, ht.2, parseQuery_roundtrip (p :: ps) (by simp) hq]
      dsimp only
      rw [if_pos (by decide), if_pos (List.all_eq_true.mpr (hf f rfl))]

theorem parseURL_structured (scheme host ptail QF : Str)
    (hs : scheme ≠ []) (hsc : ∀ c ∈ scheme, isSchemeChar c = true)
    (hh : host ≠ []) (hhc : ∀ c ∈ host, isHostChar c = true)
    (hpc : ∀ c ∈ ('/' :: ptail : Str), isPathChar c = true)
    (hpok : pathOK ('/' :: ptail) = true)
    (hQF : QF = [] ∨ (∃ t, QF = '?' :: t) ∨ (∃ t, QF = '#' :: t)) :
    parseURL (scheme ++ ':' :: '/' :: '/' :: (host ++ '/' :: (ptail ++ QF))) =
      parseAfterPath scheme host ('/' :: ptail) QF := by
  unfold parseURL
  have h1 := takeWhile_append_of isSchemeChar scheme
    (':' :: '/' :: '/' :: (host ++ '/' :: (ptail ++ QF))) hsc
    (fun c hc => by
      simp only [List.head?_cons, Option.some.injEq] at hc
      subst hc
      decide)
  rw [h1.1, h1.2]
  dsimp only
  rw [if_pos (by decide)]
  have hse : ¬ (scheme.isEmpty = true) := by
    cases scheme with
    | nil => exact absurd rfl hs
    | cons a t => simp
  rw [if_neg hse]
  have h2 := takeWhile_append_of isHostChar host ('/' :: (ptail ++ QF)) hhc
    (fun c hc => by
      simp only [List.head?_cons, Option.some.injEq] at hc
      subst hc
      decide)
  rw [h2.1, h2.2]
  dsimp only
  have hhe : ¬ (host.isEmpty = true) := by
    cases host with
    | nil => exact absurd rfl hh
    | cons a t => simp
  rw [if_neg hhe, if_pos (by decide)]
  have e1 : ('/' :: (ptail ++ QF) : Str) = ('/' :: ptail) ++ QF := by simp
  have h3 := takeWhile_append_of notPathEnd ('/' :: ptail) QF
    (fun c hc => pathChar_notPathEnd (hpc c hc))
    (fun c hc => by
      rcases hQF with rfl | ⟨t, rfl⟩ | ⟨t, rfl⟩
      · cases hc
      · simp only [List.head?_cons, Option.some.injEq] at hc
        subst hc
        decide
      · simp only [List.head?_cons, Option.some.injEq] at hc
        subst hc
        decide)
  rw [e1, h3.1, h3.2, if_pos hpok]

theorem parse_serialize (u : URLRec) (hv : validURL u) :
    parseURL (serializeURL u) = some u := by
  obtain ⟨scheme, host, path, query, frag⟩ := u
  obtain ⟨hs, hsc, hh, hhc, hph, hpok, hq, hf⟩ := hv
  dsimp only at hs hsc hh hhc hph hpok hq hf
  obtain ⟨ptail, rfl⟩ : ∃ t, path = '/' :: t := by
    cases path with
    | nil => simp at hph
    | cons a t =>
      simp only [List.head?_cons, Option.some.injEq] at hph
      exact ⟨t, by rw [hph]⟩
  have hser : serializeURL ⟨scheme, host, '/' :: ptail, query, frag⟩ =
      scheme ++ ':' :: '/' :: '/' ::
        (host ++ '/' :: (ptail ++ queryFragPart query frag)) := by
    unfold serializeURL
    simp [List.append_assoc]
  have hpc : ∀ c ∈ ('/' :: ptail : Str), isPathChar c = true := by
    have h := hpok
    unfold pathOK at h
    rw [Bool.and_eq_true] at h
    exact List.all_eq_true.mp h.1
  have hqf : queryFragPart query frag = [] ∨
      (∃ t, queryFragPart query frag = '?' :: t) ∨
      (∃ t, queryFragPart query frag = '#' :: t) := by
    cases query with
    | nil =>
      cases frag with
      | none => exact Or.inl rfl
      | some f => exact Or.inr (Or.inr ⟨f, rfl⟩)
    | cons p ps =>
      cases frag with
      | none =>
        refine Or.inr (Or.inl ⟨queryToStr (p :: ps), ?_⟩)
        unfold queryFragPart
        simp
      | some f =>
        refine Or.inr (Or.inl ⟨queryToStr (p :: ps) ++ '#' :: f, ?_⟩)
        unfold queryFragPart
        simp
  rw [hser, parseURL_structured scheme host ptail (queryFragPart query frag)
    hs hsc hh hhc hpc hpok hqf]
  exact parseAfterPath_roundtrip scheme host ('/' :: ptail) query frag hq hf

theorem parseQuerySeg_valid {s : Str} {p : Str × Str}
    (hp : parseQuerySeg s = some p) :
    (∀ c ∈ p.1, isQueryChar c = true) ∧ (∀ c ∈ p.2, isQueryChar c = true) := by
  unfold parseQuerySeg at hp
  split at hp
  · dsimp only at hp
    split at hp
    · next hall =>
      injection hp with hp
      subst hp
      refine ⟨List.all_eq_true.mp hall, ?_⟩
      intro c hc
      cases hc
    · cases hp
  · dsimp only at hp
    split at hp
    · next hall =>
      injection hp with hp
      subst hp
      rw [Bool.and_eq_true] at hall
      exact ⟨List.all_eq_true.mp hall.1, List.all_eq_true.mp hall.2⟩
    · cases hp

theorem mapM_parseQuerySeg_valid {segs : List Str} {q : List (Str × Str)}
    (hp : segs.mapM parseQuerySeg = some q) :
    ∀ p ∈ q, (∀ c ∈ p.1, isQueryChar c = true) ∧
      (∀ c ∈ p.2, isQueryChar c = true) := by
  induction segs generalizing q with
  | nil =>
    simp only [List.mapM_nil, pure, Option.some.injEq] at hp
    subst hp
    intro p hp2
    cases hp2
  | cons s ss ih =>
    simp only [List.mapM_cons] at hp
    cases h1 : parseQuerySeg s with
    | none => rw [h1] at hp; cases hp
    | some p0 =>
      rw [h1] at hp
      cases h2 : ss.mapM parseQuerySeg with
      | none => rw [h2] at hp; simp at hp
      | some rest =>
        rw [h2] at hp
        simp at hp
        subst hp
        intro p hp2
        rcases List.mem_cons.mp hp2 with rfl | hmem
        · exact parseQuerySeg_valid h1
        · exact ih h2 p hmem

theorem parseQuery_valid {raw : Str} {q : List (Str × Str)}
    (hp : parseQuery raw = some q) :
    ∀ p ∈ q, (∀ c ∈ p.1, isQueryChar c = true) ∧
      (∀ c ∈ p.2, isQueryChar c = true) :=
  mapM_parseQuerySeg_valid hp

theorem parseAfterPath_valid {scheme host path r3 : Str} {u : URLRec}
    (hp : parseAfterPath scheme host path r3 = some u) :
    u.scheme = scheme ∧ u.host = host ∧ u.path = path ∧
    (∀ p ∈ u.query, (∀ c ∈ p.1, isQueryChar c = true) ∧
      (∀ c ∈ p.2, isQueryChar c = true)) ∧
    (∀ f, u.frag = some f → ∀ c ∈ f, isFragChar c = true) := by
  unfold parseAfterPath at hp
  split at hp
  · injection hp with hp
    subst hp
    refine ⟨rfl, rfl, rfl, ?_, ?_⟩
    · intro p hp2; cases hp2
    · intro f hf; cases hf
  · split at hp
    · dsimp only at hp
      split at hp
      · cases hp
      · next q hq =>
        split at hp
        · injection hp with hp
          subst hp
          refine ⟨rfl, rfl, rfl, parseQuery_valid hq, ?_⟩
          intro f hf; cases hf
        · split at hp
          · split at hp
            · next hall =>
              injection hp with hp
              subst hp
              refine ⟨rfl, rfl, rfl, parseQuery_valid hq, ?_⟩
              intro f hf
              injection hf with hf
              subst hf
              exact List.all_eq_true.mp hall
            · cases hp
          · cases hp
    · split at hp
      · split at hp
        · next hall =>
          injection hp with hp
          subst hp
          refine ⟨rfl, rfl, rfl, ?_, ?_⟩
          · intro p hp2; cases hp2
          · intro f hf
            injection hf with hf
            subst hf
            exact List.all_eq_true.mp hall
        · cases hp
      · cases hp

theorem parse_valid {cs : Str} {u : URLRec} (hp : parseURL cs = some u) :
    validURL u := by
  unfold parseURL at hp
  split at hp
  case h_2 => cases hp
  case h_1 c1 c2 c3 r1 heq =>
    split at hp
    case isFalse => cases hp
    case isTrue hguard =>
      dsimp only at hp
      split at hp
      case isTrue => cases hp
      case isFalse hsch =>
        split at hp
        case isTrue => cases hp
        case isFalse hhost =>
          have hsc : ∀ c ∈ cs.takeWhile isSchemeChar, isSchemeChar c = true :=
            fun c hc => List.mem_takeWhile_imp hc
          have hs : cs.takeWhile isSchemeChar ≠ [] := by
            intro hnil
            rw [hnil] at hsch
            exact hsch rfl
          have hhc : ∀ c ∈ r1.takeWhile isHostChar, isHostChar c = true :=
            fun c hc => List.mem_takeWhile_imp hc
          have hh : r1.takeWhile isHostChar ≠ [] := by
            intro hnil
            rw [hnil] at hhost
            exact hhost rfl
          split at hp
          · -- r2 = []
            obtain ⟨e1, e2, e3, e4, e5⟩ := parseAfterPath_valid hp
            exact ⟨e1 ▸ hs, e1 ▸ hsc, e2 ▸ hh, e2 ▸ hhc,
              by rw [e3]; rfl, by rw [e3]; decide, e4, e5⟩
          · next c rest heq2 =>
            split at hp
            · next hslash =>
              split at hp
              case isFalse => cases hp
              case isTrue hpok =>
                obtain ⟨e1, e2, e3, e4, e5⟩ := parseAfterPath_valid hp
                have hhead : (r1.dropWhile isHostChar).takeWhile
                    notPathEnd = '/' :: (rest.takeWhile notPathEnd) := by
                  rw [heq2]
                  have hc : c = '/' := by
                    have := hslash
                    rwa [beq_iff_eq] at this
                  subst hc
                  rw [List.takeWhile_cons, if_pos (show notPathEnd '/' = true by decide)]
                refine ⟨e1 ▸ hs, e1 ▸ hsc, e2 ▸ hh, e2 ▸ hhc, ?_, e3 ▸ hpok,
                  e4, e5⟩
                rw [e3, hhead]
                rfl
            · split at hp
              · obtain ⟨e1, e2, e3, e4, e5⟩ := parseAfterPath_valid hp
                exact ⟨e1 ▸ hs, e1 ▸ hsc, e2 ▸ hh, e2 ▸ hhc,
                  by rw [e3]; rfl, by rw [e3]; decide, e4, e5⟩
              · cases hp

theorem valid_strippedRec {u : URLRec} (hv : validURL u) :
    validURL (strippedRec u) := by
  obtain ⟨h1, h2, h3, h4, h5, h6, h7, h8⟩ := hv
  refine ⟨h1, h2, h3, h4, h5, h6, ?_, h8⟩
  intro p hp
  exact h7 p (List.mem_filter.mp hp).1

theorem filter_track_idem (q : List (Str × Str)) :
    (q.filter fun p => !(trackerKeys.contains p.1)).filter
      (fun p => !(trackerKeys.contains p.1)) =
    q.filter fun p => !(trackerKeys.contains p.1) := by
  rw [List.filter_filter]
  congr 1
  funext p
  rw [Bool.and_self]

theorem strippedRec_idem (u : URLRec) :
    strippedRec (strippedRec u) = strippedRec u := by
  unfold strippedRec
  dsimp only
  rw [filter_track_idem]

theorem stripTracking_of_parse {cs : Str} {u : URLRec}
    (hp : parseURL cs = some u) :
    stripTracking cs =
      (if (lastIs (serializeURL (strippedRec u)) '/' &&
          decide (u.path ≠ ['/'])) = true then
        (serializeURL (strippedRec u)).dropLast
      else serializeURL (strippedRec u)) := by
  unfold stripTracking
  rw [hp]

theorem stripTracking_of_none {cs : Str} (hp : parseURL cs = none) :
    stripTracking cs = cs := by
  unfold stripTracking
  rw [hp]

theorem getLastQ_of_ne_nil {B : Str} (hB : B ≠ []) :
    ∃ b, B.getLast? = some b := by
  induction B with
  | nil => exact absurd rfl hB
  | cons x xs ih =>
    cases xs with
    | nil => exact ⟨x, rfl⟩
    | cons y ys =>
      obtain ⟨b, hb⟩ := ih (by simp)
      exact ⟨b, by rw [List.getLast?_cons_cons]; exact hb⟩

theorem lastIs_append {A B : Str} (hB : B ≠ []) (c : Char) :
    lastIs (A ++ B) c = lastIs B c := by
  obtain ⟨b, hb⟩ := getLastQ_of_ne_nil hB
  unfold lastIs
  rw [List.getLast?_append, hb]
  rfl

theorem eq_dropLast_append {B : Str} {b : Char} (hB : B ≠ [])
    (hb : B.getLast? = some b) : B = B.dropLast ++ [b] := by
  have h1 := List.dropLast_append_getLast hB
  have h3 := List.getLast?_eq_getLast B hB
  rw [h3, Option.some.injEq] at hb
  rw [hb] at h1
  exact h1.symm

theorem splitOnChar_ne_nil (sep : Char) (l : Str) :
    splitOnChar sep l ≠ [] := by
  cases l with
  | nil => simp [splitOnChar]
  | cons c t =>
    simp only [splitOnChar]
    split
    · simp
    · split <;> simp

theorem splitOnChar_append_sep_nil (sep : Char) (l : Str) :
    splitOnChar sep (l ++ [sep]) = splitOnChar sep l ++ [[]] := by
  induction l with
  | nil => simp [splitOnChar]
  | cons c t ih =>
    by_cases hc : (c == sep) = true
    · simp only [List.cons_append, splitOnChar, hc, if_true, List.append_eq, ih]
    · have hc2 : (c == sep) = false := by
        cases h : (c == sep)
        · rfl
        · exact absurd h hc
      simp only [List.cons_append, splitOnChar, hc2, Bool.false_eq_true,
        if_false, List.append_eq]
      rw [ih]
      cases hsp : splitOnChar sep t with
      | nil => exact absurd hsp (splitOnChar_ne_nil sep t)
      | cons h r => rfl

theorem segsOK_dropLast {path : Str} (hne : path ≠ [])
    (hlast : path.getLast? = some '/') (hok : segsOK path = true) :
    segsOK path.dropLast = true := by
  have hdecomp := eq_dropLast_append hne hlast
  unfold segsOK at hok ⊢
  rw [hdecomp, splitOnChar_append_sep_nil, List.all_append,
    Bool.and_eq_true] at hok
  exact hok.1

theorem head_of_append_slash {D : Str} {d : Char} (hD : D ≠ [])
    (h : (D ++ ['/'] : Str).head? = some d) : D.head? = some d := by
  cases D with
  | nil => exact absurd rfl hD
  | cons x xs => simpa using h

theorem serializeURL_frag (s h p : Str) (q : List (Str × Str)) (f : Str) :
    serializeURL ⟨s, h, p, q, some f⟩ =
      serializeURL ⟨s, h, p, q, none⟩ ++ '#' :: f := by
  unfold serializeURL queryFragPart
  simp [List.append_assoc]

theorem serializeURL_query (s h p : Str) (q : List (Str × Str))
    (hq : q ≠ []) :
    serializeURL ⟨s, h, p, q, none⟩ =
      serializeURL ⟨s, h, p, [], none⟩ ++ '?' :: queryToStr q := by
  unfold serializeURL queryFragPart
  have hqe : q.isEmpty = false := by
    cases q with
    | nil => exact absurd rfl hq
    | cons a t => rfl
  rw [hqe]
  simp [List.append_assoc]

theorem serializeURL_plain (s h p : Str) :
    serializeURL ⟨s, h, p, [], none⟩ = (s ++ ':' :: '/' :: '/' :: h) ++ p := by
  unfold serializeURL queryFragPart
  simp [List.append_assoc]

theorem stripTracking_fix {v : Str} {u3 : URLRec} (hp : parseURL v = some u3)
    (hst : normStable v = true)
    (hflt : strippedRec u3 = u3)
    (hser : serializeURL u3 = v) :
    stripTracking v = v := by
  rw [stripTracking_of_parse hp, hflt, hser]
  unfold normStable at hst
  rw [hp] at hst
  dsimp only at hst
  rw [Bool.or_eq_true] at hst
  by_cases hpv : u3.path = ['/']
  · rw [if_neg (by simp [hpv])]
  · have hlast : lastIs v '/' = false := by
      rcases hst with h2 | h2
      · rwa [Bool.not_eq_true'] at h2
      · exact absurd (by rwa [beq_iff_eq] at h2) hpv
    rw [if_neg (by simp [hlast])]

theorem lastIs_iff {l : Str} {c : Char} :
    lastIs l c = true ↔ l.getLast? = some c := by
  unfold lastIs
  cases h : l.getLast? with
  | none => simp
  | some x => simp [beq_iff_eq]

/-- C5 counterexample: `stripTracking` is not idempotent.  On
`https://example.com///` the first pass strips one trailing slash (path
`///` → output `https://example.com//`) and a second pass strips another. -/
theorem C5_counterexample :
    stripTracking (stripTracking (str "https://example.com///")) ≠
      stripTracking (str "https://example.com///") := by
  decide

/-- C5 (amended): `stripTracking` is idempotent on every URL whose
normalized form does not end in a slash, or whose normalized form is a
root-path URL — i.e. unless the trailing-slash rule can fire again on the
second pass (multi-slash path or slash-final fragment). -/
theorem C5_idempotent_of_stable (cs : Str)
    (h : normStable (stripTracking cs) = true) :
    stripTracking (stripTracking cs) = stripTracking cs := by
  cases hp : parseURL cs with
  | none =>
    rw [stripTracking_of_none hp]
    exact stripTracking_of_none hp
  | some u =>
    have hv := parse_valid hp
    have hv2 : validURL (strippedRec u) := valid_strippedRec hv
    have hout := stripTracking_of_parse hp
    rw [hout] at h ⊢
    split at h
    · next hC =>
      rw [if_pos hC]
      rw [Bool.and_eq_true] at hC
      obtain ⟨hlast, hdec⟩ := hC
      have hpne : u.path ≠ ['/'] := of_decide_eq_true hdec
      obtain ⟨sch, host, path, query, frag⟩ := u
      obtain ⟨hs, hsc, hh, hhc, hph, hpok, hq, hf⟩ := hv
      dsimp only at hs hsc hh hhc hph hpok hq hf hpne hlast h ⊢
      have hsrec : strippedRec ⟨sch, host, path, query, frag⟩ =
          ⟨sch, host, path,
            query.filter fun p => !(trackerKeys.contains p.1), frag⟩ := rfl
      rw [hsrec] at hlast h ⊢
      generalize hqf :
        (query.filter fun p => !(trackerKeys.contains p.1)) = qf
        at hlast h ⊢
      have hqv : ∀ p ∈ qf, (∀ c ∈ p.1, isQueryChar c = true) ∧
          (∀ c ∈ p.2, isQueryChar c = true) := by
        intro p hp2
        rw [← hqf] at hp2
        exact hq p (List.mem_filter.mp hp2).1
      have hqidem : qf.filter (fun p => !(trackerKeys.contains p.1)) = qf := by
        rw [← hqf]
        exact filter_track_idem query
      cases frag with
      | some f =>
        rw [serializeURL_frag] at hlast h ⊢
        rw [lastIs_append (by simp) '/', lastIs_iff] at hlast
        cases f with
        | nil => simp at hlast
        | cons a t =>
          rw [List.getLast?_cons_cons] at hlast
          have hgdecomp := eq_dropLast_append (B := a :: t) (by simp) hlast
          have hfd : ('#' :: (a :: t) : Str) =
              ('#' :: (a :: t).dropLast) ++ ['/'] := by
            conv_lhs => rw [hgdecomp]
            simp
          have hvq : ((serializeURL ⟨sch, host, path, qf, none⟩ ++
              '#' :: (a :: t)).dropLast : Str) =
              serializeURL ⟨sch, host, path, qf, none⟩ ++
                '#' :: (a :: t).dropLast := by
            rw [hfd, ← List.append_assoc, List.dropLast_concat]
          rw [hvq] at h ⊢
          rw [← serializeURL_frag] at h ⊢
          have hv3 : validURL ⟨sch, host, path, qf, (a :: t).dropLast⟩ := by
            refine ⟨hs, hsc, hh, hhc, hph, hpok, hqv, ?_⟩
            intro f2 hf2
            injection hf2 with hf2
            subst hf2
            intro c hc
            exact hf (a :: t) rfl c (List.dropLast_subset _ hc)
          have hs3 : strippedRec ⟨sch, host, path, qf,
              some (a :: t).dropLast⟩ =
              ⟨sch, host, path, qf, some (a :: t).dropLast⟩ := by
            unfold strippedRec
            dsimp only
            rw [hqidem]
          exact stripTracking_fix (parse_serialize _ hv3) h hs3 rfl
      | none =>
        cases qf with
        | cons p0 ps =>
          exfalso
          rw [serializeURL_query sch host path (p0 :: ps) (by simp)] at hlast
          rw [lastIs_append (by simp) '/', lastIs_iff] at hlast
          have hmem := mem_of_getLastQ hlast
          rcases List.mem_cons.mp hmem with heq | hmem2
          · cases heq
          · exact queryToStr_ne_slash hqv hmem2 rfl
        | nil =>
          rw [serializeURL_plain] at hlast h ⊢
          have hpathne : path ≠ [] := by
            intro hnil
            rw [hnil] at hph
            cases hph
          rw [lastIs_append hpathne '/', lastIs_iff] at hlast
          have hvq : (((sch ++ ':' :: '/' :: '/' :: host) ++ path).dropLast :
              Str) = (sch ++ ':' :: '/' :: '/' :: host) ++ path.dropLast :=
            List.dropLast_append_of_ne_nil _ hpathne
          rw [hvq] at h ⊢
          rw [← serializeURL_plain] at h ⊢
          have hdl : path.dropLast.head? = some '/' ∧ path.dropLast ≠ [] := by
            cases path with
            | nil => exact absurd rfl hpathne
            | cons x xs =>
              simp only [List.head?_cons, Option.some.injEq] at hph
              subst hph
              cases xs with
              | nil => exact absurd rfl hpne
              | cons y ys =>
                constructor
                · rfl
                · simp [List.dropLast]
          have hv3 : validURL ⟨sch, host, path.dropLast, [], none⟩ := by
            refine ⟨hs, hsc, hh, hhc, hdl.1, ?_, ?_, ?_⟩
            · unfold pathOK
              rw [Bool.and_eq_true]
              unfold pathOK at hpok
              rw [Bool.and_eq_true] at hpok
              constructor
              · refine List.all_eq_true.mpr ?_
                intro c hc
                exact List.all_eq_true.mp hpok.1 c (List.dropLast_subset _ hc)
              · exact segsOK_dropLast hpathne hlast hpok.2
            · intro p hp2
              cases hp2
            · intro f2 hf2
              cases hf2
          exact stripTracking_fix (parse_serialize _ hv3) h rfl rfl
    · next hC =>
      rw [if_neg hC]
      have hprs : parseURL (serializeURL (strippedRec u)) =
          some (strippedRec u) := parse_serialize _ hv2
      apply stripTracking_fix hprs ?_ (strippedRec_idem u) rfl
      unfold normStable
      rw [hprs]
      dsimp only
      rw [Bool.or_eq_true]
      have hCf : (lastIs (serializeURL (strippedRec u)) '/' &&
          decide (u.path ≠ ['/'])) = false := by
        cases hb : (lastIs (serializeURL (strippedRec u)) '/' &&
            decide (u.path ≠ ['/']))
        · rfl
        · exact absurd hb hC
      rcases Bool.and_eq_false_iff.mp hCf with h2 | h2
      · left
        rw [Bool.not_eq_true']
        exact h2
      · right
        have hpv : u.path = ['/'] := by
          have h3 := of_decide_eq_false h2
          by_contra h4
          exact h3 h4
        have hpv2 : (strippedRec u).path = ['/'] := hpv
        rw [hpv2]
        rfl

/-- C5 witness: the amended idempotence applied to a concrete URL carrying
a tracking parameter. -/
theorem C5_idempotent_witness :
    normStable (stripTracking (str "https://example.com/a?utm_source=x&b=2")) =
      true ∧
    stripTracking (stripTracking
      (str "https://example.com/a?utm_source=x&b=2")) =
      stripTracking (str "https://example.com/a?utm_source=x&b=2") :=
  ⟨by decide, C5_idempotent_of_stable _ (by decide)⟩

/-! ## C1 -/

/-- C1 counterexample: two records with the same canonical URL arriving with
timestamps 0 and 86400000 merge to `publishedAt = 86400000` — the later of
the two, not the earliest as the claim states. -/
theorem C1_counterexample :
    stripTracking c1r1.url = stripTracking c1r2.url ∧
    ((dedupeMap 86400000 [c1r1, c1r2]).map fun p => p.2.publishedAt) =
      [86400000] ∧
    (86400000 : Int) ≠ min c1r1.publishedAt c1r2.publishedAt := by
  decide

/-- C1 (amended): on an identity collision the merged item's `publishedAt`
is the LATEST of the two observed timestamps, in either arrival order. -/
theorem C1_merge_keeps_latest (now : Int) (r1 r2 : Raw)
    (hurl : stripTracking r1.url = stripTracking r2.url)
    (hu : stripTracking r1.url ≠ [])
    (ht1 : trimStr r1.title ≠ []) (ht2 : trimStr r2.title ≠ []) :
    ((dedupeMap now [r1, r2]).map fun p => p.2.publishedAt) =
      [max r1.publishedAt r2.publishedAt] ∧
    ((dedupeMap now [r2, r1]).map fun p => p.2.publishedAt) =
      [max r1.publishedAt r2.publishedAt] := by
  constructor
  · rw [dedupeMap_pair hurl hu ht1 ht2]
    simp [mergeItems_publishedAt, candItem_publishedAt]
  · rw [dedupeMap_pair hurl.symm (hurl ▸ hu) ht2 ht1]
    simp [mergeItems_publishedAt, candItem_publishedAt, max_comm]

/-- C1 witness: the amended merge rule evaluated on the concrete pair. -/
theorem C1_merge_keeps_latest_witness :
    ((dedupeMap 86400000 [c1r1, c1r2]).map fun p => p.2.publishedAt) =
      [max c1r1.publishedAt c1r2.publishedAt] :=
  (C1_merge_keeps_latest 86400000 c1r1 c1r2 (by decide) (by decide)
    (by decide) (by decide)).1

/-! ## C6, C9, C10 -/

/-- C6: the classifier is total — for every `(title, url, source)` triple it
returns a category of the fixed six-member enumeration together with a
non-empty tag list. -/
theorem C6_classifier_total (title url source : Str) :
    (assignTabAndTags title url source).1 ∈
      [Tab.ICT, Tab.INFO1, Tab.EXAM, Tab.AI_EDU, Tab.AI_LATEST, Tab.MEXT] ∧
    (assignTabAndTags title url source).2 ≠ [] := by
  constructor
  · cases (assignTabAndTags title url source).1 <;> simp
  · unfold assignTabAndTags
    dsimp only
    repeat' split
    all_goals dsimp only
    all_goals
      first
      | exact withFallback_ne_nil _ _
      | simp

/-- C9: loading the bookmark store when the persisted value is absent or is
unparseable JSON yields the empty store `{map: {}, order: []}`; the loader
is a total function, so no error propagates. -/
theorem C9_load_corrupt_empty :
    loadBookmarks none = emptyBM ∧ loadBookmarks (some none) = emptyBM :=
  ⟨rfl, rfl⟩

/-- C10: switching the active tab resets the tag filter to `null`, the
search text to empty, the sort mode to score-descending and the retention
window to 7 days, for every previous selection state. -/
theorem C10_setTab_resets (k : Str) (s : ViewState) :
    (setTab k s).activeTag = none ∧ (setTab k s).searchText = [] ∧
    (setTab k s).sortMode = str "score" ∧ (setTab k s).daysValue = str "7" :=
  ⟨rfl, rfl, rfl, rfl⟩

/-! ## C7 -/

/-- C7 counterexample: in a state where the item is already bookmarked
behind another entry, toggling twice does not restore the prior state (the
identity moves to the front of the order list), and the identity is still
present afterwards. -/
theorem C7_counterexample :
    toggleBookmark itB (toggleBookmark itB bm2) ≠ bm2 ∧
    itB.id ∈ (toggleBookmark itB (toggleBookmark itB bm2)).order := by
  decide

/-- C7 (amended): toggling the same item twice restores the prior bookmark
state whenever the item was not bookmarked before (identity absent from map
and order) and the order list is below the soft cap. -/
theorem C7_toggle_roundtrip (item : Item) (bm : BMState)
    (hmap : mapGet bm.map item.id = none)
    (hord : item.id ∉ bm.order)
    (hcap : bm.order.length < bmCAP) :
    toggleBookmark item (toggleBookmark item bm) = bm := by
  obtain ⟨m, o⟩ := bm
  simp only at hmap hord hcap
  have hfind : m.find? (fun p => p.1 == item.id) = none := by
    unfold mapGet at hmap
    cases h : m.find? (fun p => p.1 == item.id) with
    | none => rfl
    | some v => rw [h] at hmap; simp at hmap
  have hc : ¬ bmCAP < (item.id :: o).length := by
    simp only [List.length_cons]
    omega
  have h1 : toggleBookmark item ⟨m, o⟩ =
      ⟨m ++ [(item.id, snapOf item)], item.id :: o⟩ := by
    unfold toggleBookmark
    rw [hmap]
    dsimp only
    rw [if_neg hc]
  rw [h1]
  have hget2 : mapGet (m ++ [(item.id, snapOf item)]) item.id =
      some (snapOf item) := by
    unfold mapGet
    rw [List.find?_append, hfind]
    simp [List.find?]
  unfold toggleBookmark
  rw [hget2]
  dsimp only
  have hm : (m ++ [(item.id, snapOf item)]).filter
      (fun p => !(p.1 == item.id)) = m := by
    rw [List.filter_append]
    have h2 : List.filter (fun p : Str × Item => !(p.1 == item.id))
        [(item.id, snapOf item)] = [] := by
      simp [List.filter]
    rw [h2, List.append_nil]
    refine List.filter_eq_self.mpr ?_
    intro a ha
    have := List.find?_eq_none.mp hfind a ha
    simpa using this
  have ho : (item.id :: o).filter (fun x => !(x == item.id)) = o := by
    simp only [List.filter_cons]
    rw [if_neg (by simp)]
    refine List.filter_eq_self.mpr ?_
    intro a ha
    simp only [Bool.not_eq_true', beq_eq_false_iff_ne]
    intro h
    exact hord (h ▸ ha)
  rw [hm, ho]

/-- C7 witness: the amended round trip on the empty store. -/
theorem C7_toggle_roundtrip_witness :
    toggleBookmark itA (toggleBookmark itA emptyBM) = emptyBM :=
  C7_toggle_roundtrip itA emptyBM (by decide) (by decide) (by decide)

/-! ## C3 -/

/-- C3: every item of the aggregated output satisfies
`now - publishedAt ≤ retentionDays + epsilon` (7 days, epsilon one
thousandth of a day); in particular nothing 8 days old survives. -/
theorem C3_retention (now : Int) (rs : List Raw) (x : Item)
    (hx : x ∈ dedupeAndEnrich now rs) :
    daysDiffFromNow now x.publishedAt ≤ DAYS_KEEP + 1 / 1000 := by
  unfold dedupeAndEnrich at hx
  have h1 := List.mem_of_mem_take hx
  have h2 := (stableSort_perm rankLE _).mem_iff.mp h1
  have h3 : inRetention now x = true := (List.mem_filter.mp h2).2
  exact (inRetention_iff now x).mp h3

/-- C3 witness: the retention bound evaluated on a concrete fresh item. -/
theorem C3_retention_witness :
    daysDiffFromNow 0 ((dedupeAndEnrich 0 [c3r]).headI.publishedAt) ≤
      DAYS_KEEP + 1 / 1000 :=
  C3_retention 0 [c3r] ((dedupeAndEnrich 0 [c3r]).headI) (by decide)

/-! ## C4 -/

theorem rankLE_trans (a b c : Item) (h1 : rankLE a b = true)
    (h2 : rankLE b c = true) : rankLE a c = true := by
  simp only [rankLE, Bool.or_eq_true, Bool.and_eq_true, decide_eq_true_eq,
    beq_iff_eq] at *
  omega

theorem rankLE_total (a b : Item) : (rankLE a b || rankLE b a) = true := by
  simp only [rankLE, Bool.or_eq_true, Bool.and_eq_true, decide_eq_true_eq,
    beq_iff_eq]
  omega

/-- C4: the aggregated output is exactly the merged, retention-filtered list
sorted by descending score with descending-`publishedAt` ties, truncated to
800: it is sorted, its length is `min 800` of the post-filter size (so 801
post-filter items give exactly 800), and every retained item ranks at least
as high as every dropped one. -/
theorem C4_output_sorted_capped (now : Int) (rs : List Raw) :
    dedupeAndEnrich now rs =
      (stableSort rankLE
        (((dedupeMap now rs).map (·.2)).filter (inRetention now))).take 800 ∧
    List.Pairwise (fun a b => rankLE a b = true) (dedupeAndEnrich now rs) ∧
    (dedupeAndEnrich now rs).length =
      min 800 (((dedupeMap now rs).map (·.2)).filter (inRetention now)).length ∧
    ∃ dropped,
      stableSort rankLE
          (((dedupeMap now rs).map (·.2)).filter (inRetention now)) =
        dedupeAndEnrich now rs ++ dropped ∧
      ∀ x ∈ dedupeAndEnrich now rs, ∀ y ∈ dropped, rankLE x y = true := by
  have hp := stableSort_pairwise rankLE_trans rankLE_total
    (((dedupeMap now rs).map (·.2)).filter (inRetention now))
  have hde : dedupeAndEnrich now rs =
      (stableSort rankLE
        (((dedupeMap now rs).map (·.2)).filter (inRetention now))).take 800 :=
    rfl
  refine ⟨rfl, ?_, ?_, ?_⟩
  · exact List.Pairwise.sublist (hde ▸ List.take_sublist _ _) hp
  · rw [hde, List.length_take,
      (stableSort_perm rankLE
        (((dedupeMap now rs).map (·.2)).filter (inRetention now))).length_eq]
  · refine ⟨(stableSort rankLE
      (((dedupeMap now rs).map (·.2)).filter (inRetention now))).drop 800,
      ?_, ?_⟩
    · rw [hde]
      exact (List.take_append_drop _ _).symm
    · rw [← List.take_append_drop 800
        (stableSort rankLE
          (((dedupeMap now rs).map (·.2)).filter (inRetention now)))] at hp
      have hdom := (List.pairwise_append.mp hp).2.2
      intro x hx y hy
      exact hdom x (hde ▸ hx) y hy

/-! ## C2 -/

/-- C2 counterexample: two colliding records (same canonical URL, non-empty
trimmed titles) whose merged timestamp is 9 days older than the clock: the
aggregated output contains no item for that URL, not exactly one. -/
theorem C2_counterexample :
    stripTracking c2r1.url = stripTracking c2r2.url ∧
    trimStr c2r1.title ≠ [] ∧ trimStr c2r2.title ≠ [] ∧
    ((dedupeAndEnrich 777600000 [c2r1, c2r2]).filter
      (fun it => it.url == stripTracking c2r1.url)).length ≠ 1 := by
  decide

/-- C2 (amended): for an input of two records with the same canonical URL
and non-empty trimmed titles, whose merged item passes the retention
filter, the aggregated output contains exactly one item for that URL; its
tags are the set union of the two candidates' tags and its score is the
maximum of their scores. -/
theorem C2_dedup_union_max (now : Int) (r1 r2 : Raw)
    (hurl : stripTracking r1.url = stripTracking r2.url)
    (hu : stripTracking r1.url ≠ [])
    (ht1 : trimStr r1.title ≠ []) (ht2 : trimStr r2.title ≠ [])
    (hret : inRetention now
      (mergeItems (candItem now r1) (candItem now r2)) = true) :
    ((dedupeAndEnrich now [r1, r2]).filter
      (fun it => it.url == stripTracking r1.url)).length = 1 ∧
    ∀ it ∈ dedupeAndEnrich now [r1, r2],
      (∀ tg, tg ∈ it.tags ↔
        tg ∈ (candItem now r1).tags ∨ tg ∈ (candItem now r2).tags) ∧
      it.score = max (candItem now r1).score (candItem now r2).score := by
  have hout : dedupeAndEnrich now [r1, r2] =
      [mergeItems (candItem now r1) (candItem now r2)] := by
    unfold dedupeAndEnrich
    rw [dedupeMap_pair hurl hu ht1 ht2]
    simp only [List.map_cons, List.map_nil]
    rw [List.filter_cons, if_pos hret, List.filter_nil]
    rfl
  rw [hout]
  constructor
  · have hurl1 : (mergeItems (candItem now r1) (candItem now r2)).url =
        stripTracking r1.url := rfl
    simp [hurl1]
  · intro it hit
    rw [List.mem_singleton] at hit
    subst hit
    refine ⟨?_, rfl⟩
    intro tg
    have htags : (mergeItems (candItem now r1) (candItem now r2)).tags =
        jsSetUnion (candItem now r1).tags (candItem now r2).tags := rfl
    rw [htags, mem_jsSetUnion]

/-- C2 witness: the amended dedup invariant on a concrete fresh pair. -/
theorem C2_dedup_union_max_witness :
    ((dedupeAndEnrich 0 [c2r1, c2r2]).filter
      (fun it => it.url == stripTracking c2r1.url)).length = 1 :=
  (C2_dedup_union_max 0 c2r1 c2r2 (by decide) (by decide) (by decide)
    (by decide) (by decide)).1

/-! ## C8 -/

theorem mem_bucketTop {now : Int} {items : List Item} {b : Tab} {z : Item}
    (hz : z ∈ bucketTop now items b) : z ∈ items ∧ z.tab = b := by
  unfold bucketTop at hz
  have h1 := List.mem_of_mem_take hz
  have h2 := (stableSort_perm scoreLE _).mem_iff.mp h1
  have h3 := List.mem_filter.mp h2
  have h4 := List.mem_filter.mp h3.1
  refine ⟨h4.1, ?_⟩
  have := h4.2
  simpa using this

theorem bucketTop_ne_nil {now : Int} {items : List Item} {b : Tab}
    (h : ∃ x ∈ items, x.tab = b ∧ withinDays now x 7 = true) :
    bucketTop now items b ≠ [] := by
  obtain ⟨x, hx, htab, hwin⟩ := h
  unfold bucketTop
  intro hnil
  rw [List.take_eq_nil_iff] at hnil
  rcases hnil with h6 | hnil
  · exact absurd h6 (by decide)
  · have hmem : x ∈ stableSort scoreLE ((items.filter fun y => y.tab == b).filter
        fun y => withinDays now y 7) := by
      refine (stableSort_perm scoreLE _).mem_iff.mpr ?_
      refine List.mem_filter.mpr ⟨List.mem_filter.mpr ⟨hx, ?_⟩, hwin⟩
      simp [htab]
    rw [hnil] at hmem
    exact absurd hmem (List.not_mem_nil x)

theorem dedupeByIdAux_subset (seen : List Str) (l : List Item) :
    ∀ z ∈ dedupeByIdAux seen l, z ∈ l := by
  induction l generalizing seen with
  | nil => intro z hz; exact absurd hz (List.not_mem_nil z)
  | cons x xs ih =>
    intro z hz
    simp only [dedupeByIdAux] at hz
    split at hz
    · exact List.mem_cons_of_mem _ (ih seen z hz)
    · rcases List.mem_cons.mp hz with rfl | hz'
      · exact List.mem_cons_self _ _
      · exact List.mem_cons_of_mem _ (ih _ z hz')

theorem exists_mem_dedupeByIdAux (seen : List Str) (l : List Item) (y : Item)
    (hy : y ∈ l) :
    (∃ z ∈ dedupeByIdAux seen l, z.id = y.id) ∨ y.id ∈ seen := by
  induction l generalizing seen with
  | nil => exact absurd hy (List.not_mem_nil y)
  | cons x xs ih =>
    simp only [dedupeByIdAux]
    rcases List.mem_cons.mp hy with rfl | hy'
    · split
      · next hs => exact Or.inr hs
      · exact Or.inl ⟨y, List.mem_cons_self _ _, rfl⟩
    · split
      · next hs => exact ih seen hy'
      · next hs =>
        rcases ih (x.id :: seen) hy' with ⟨z, hz, hid⟩ | hseen
        · exact Or.inl ⟨z, List.mem_cons_of_mem _ hz, hid⟩
        · rcases List.mem_cons.mp hseen with heq | hseen'
          · exact Or.inl ⟨x, List.mem_cons_self _ _, heq.symm⟩
          · exact Or.inr hseen'

theorem exists_mem_dedupeById (l : List Item) (y : Item) (hy : y ∈ l) :
    ∃ z ∈ dedupeById l, z.id = y.id := by
  rcases exists_mem_dedupeByIdAux [] l y hy with h | h
  · exact h
  · exact absurd h (List.not_mem_nil _)

/-- C8 counterexample: all six digest buckets are represented within the
7-day window, yet the digest (capped to 20) contains no MEXT item — four
categories of uniformly high scores fill every slot. -/
theorem C8_counterexample :
    (∀ b ∈ buckets, ∃ x ∈ c8items, x.tab = b ∧ withinDays 0 x 7 = true) ∧
    ¬ ∃ y ∈ pickToday 0 c8items, y.tab = Tab.MEXT := by
  decide

/-- C8 (amended): whenever ids determine tabs and the deduplicated
cross-bucket candidate pool fits in the 20-item cap, the digest contains at
least one item of every bucket represented within the 7-day window. -/
theorem C8_digest_balance (now : Int) (items : List Item)
    (hid : ∀ x ∈ items, ∀ y ∈ items, x.id = y.id → x.tab = y.tab)
    (hlen : (pickTodayPool now items).length ≤ 20) :
    ∀ b ∈ buckets, (∃ x ∈ items, x.tab = b ∧ withinDays now x 7 = true) →
      ∃ y ∈ pickToday now items, y.tab = b := by
  intro b hb hex
  have hne := bucketTop_ne_nil hex
  obtain ⟨z, hz⟩ : ∃ z, z ∈ bucketTop now items b := by
    cases h : bucketTop now items b with
    | nil => exact absurd h hne
    | cons a t => exact ⟨a, h ▸ List.mem_cons_self a t⟩
  have hzi := mem_bucketTop hz
  have hzf : z ∈ buckets.flatMap (bucketTop now items) :=
    List.mem_flatMap.mpr ⟨b, hb, hz⟩
  obtain ⟨w, hw, hwid⟩ := exists_mem_dedupeById _ z hzf
  have hwf : w ∈ buckets.flatMap (bucketTop now items) :=
    dedupeByIdAux_subset _ _ w hw
  obtain ⟨b2, _, hwb⟩ := List.mem_flatMap.mp hwf
  have hwi := mem_bucketTop hwb
  have hwtab : w.tab = b := by
    rw [hid w hwi.1 z hzi.1 hwid, hzi.2]
  refine ⟨w, ?_, hwtab⟩
  unfold pickToday
  have hlen2 : (stableSort scoreLE (pickTodayPool now items)).length ≤ 20 := by
    rw [(stableSort_perm scoreLE (pickTodayPool now items)).length_eq]
    exact hlen
  rw [List.take_of_length_le hlen2]
  exact (stableSort_perm scoreLE _).mem_iff.mpr hw

/-- C8 witness: the amended balance property on one item per bucket. -/
theorem C8_digest_balance_witness :
    ∃ y ∈ pickToday 0 c8small, y.tab = Tab.MEXT :=
  C8_digest_balance 0 c8small (by decide) (by decide) Tab.MEXT (by decide)
    (by decide)

end ITR
